import Mathlib

set_option autoImplicit false

/-!
Shallow embedding of the bevy_ggrs rollback subsystem: input codec,
session abstraction, snapshot histories, fixed-timestep driver,
checksum parts and entity-identity reconciliation, together with
theorems settling the specification claims.
-/

namespace BevyGgrs

/-! ### f32 bit patterns

Machine floats are modelled by their 32-bit IEEE-754 bit patterns, as
natural numbers below 2^32.  `to_be_bytes` / `from_be_bytes` are exact
inverses on bit patterns, so a `[u8; 4]` field holding the big-endian
bytes of an f32 is modelled by the pattern itself. -/

/-- Bit pattern of a 32-bit float (a natural number below 2^32). -/
abbrev F32Bits := ℕ

/-- Models `f32::is_finite`: the 8 exponent bits are not all ones. -/
def f32IsFinite (bits : F32Bits) : Bool :=
  decide (bits / 2 ^ 23 % 2 ^ 8 ≠ 255)

/-- Bit pattern of Rust's `f32::NAN` constant (quiet NaN, 0x7FC00000). -/
def f32NANBits : F32Bits := 0x7FC00000

/-- Models `bevy::prelude::Vec2` at bit-pattern level. -/
structure Vec2 where
  x : F32Bits
  y : F32Bits
deriving DecidableEq

/-- Models `MousePositionInput` from src/src/input/mouse_position.rs: two
`[u8; 4]` fields holding big-endian f32 bytes, here kept as bit patterns. -/
structure MousePositionInput where
  x : F32Bits
  y : F32Bits
deriving DecidableEq

/-- Models `MousePositionInput::get`: decode both fields and return `none`
unless both are finite. -/
def MousePositionInput.get (self : MousePositionInput) : Option Vec2 :=
  if !f32IsFinite self.y || !f32IsFinite self.x then
    none
  else
    some ⟨self.x, self.y⟩

/-- Models `MousePositionInput::set`: store the position, or the NaN
sentinel in both fields when absent.  The prior contents are overwritten. -/
def MousePositionInput.set (_self : MousePositionInput) (position : Option Vec2) :
    MousePositionInput :=
  let p := position.getD ⟨f32NANBits, f32NANBits⟩
  { x := p.x, y := p.y }

/-- Models `MousePositionInput::default`: a zeroed value on which
`set(None)` has been called. -/
def MousePositionInput.default : MousePositionInput :=
  MousePositionInput.set ⟨0, 0⟩ none

/-- Models `KeyCodeInput` from src/src/input/keycode.rs: a `[u8; 21]` of
bit-packed key state, kept as a list of bytes. -/
structure KeyCodeInput where
  keycodes : List ℕ
deriving DecidableEq

/-- Models `KeyCodeInput::default` (all bytes zero). -/
def KeyCodeInput.default : KeyCodeInput :=
  ⟨List.replicate 21 0⟩

/-- Models `KeyCodeInput::map`: a key code discriminant (`keycode as u32`,
the stable enumeration of `bevy::prelude::KeyCode`) maps to a (bank,
channel) pair. -/
def KeyCodeInput.map (keycode : ℕ) : ℕ × ℕ :=
  let channel := keycode % 8
  let bank := (keycode - channel) / 8
  (bank, channel)

/-- Models `KeyCodeInput::get`; `none` models the Rust panic that fires
when the bank index is outside the 21-byte array. -/
def KeyCodeInput.get (self : KeyCodeInput) (keycode : ℕ) : Option Bool :=
  let bc := KeyCodeInput.map keycode
  match self.keycodes.get? bc.1 with
  | none => none
  | some b => some (decide (b &&& (1 <<< bc.2) ≠ 0))

/-- Models `KeyCodeInput::set`; `none` models the Rust panic on an
out-of-range bank. -/
def KeyCodeInput.set (self : KeyCodeInput) (keycode : ℕ) (value : Bool) :
    Option KeyCodeInput :=
  let bc := KeyCodeInput.map keycode
  match self.keycodes.get? bc.1 with
  | none => none
  | some b =>
    let mask := 1 <<< bc.2
    let b2 := if value then b ||| mask else b &&& (255 ^^^ mask)
    some ⟨self.keycodes.set bc.1 b2⟩

/-- A logical mouse-cursor state is representable when it is either absent
or a position whose coordinates are both finite. -/
def RepresentableCursor (position : Option Vec2) : Prop :=
  match position with
  | none => True
  | some p => f32IsFinite p.x = true ∧ f32IsFinite p.y = true

/-- Well-formedness of a `KeyCodeInput`: 21 banks, each a byte. -/
def KeyCodeInput.WF (self : KeyCodeInput) : Prop :=
  self.keycodes.length = 21 ∧ ∀ b ∈ self.keycodes, b < 256

/-! ### Session abstraction (src/src/session.rs)

The three `ggrs` session types are external collaborators; they are
modelled by the fields this crate reads. -/

/-- Models `ggrs::SyncTestSession`: the configured maximum prediction. -/
structure SyncTestSession where
  maxPrediction : ℕ

/-- Models `ggrs::P2PSession`: the configured maximum prediction. -/
structure P2PSession where
  maxPrediction : ℕ

/-- Models `ggrs::SpectatorSession` (no prediction configuration read). -/
structure SpectatorSession where
  framesBehindHost : ℕ

/-- Models the `Session` resource enum from src/src/session.rs. -/
inductive Session where
  | syncTestSession (s : SyncTestSession)
  | p2pSession (s : P2PSession)
  | spectatorSession (s : SpectatorSession)

/-- Models `Session::max_prediction_window`. -/
def Session.max_prediction_window : Session → ℕ
  | .syncTestSession s => s.maxPrediction
  | .p2pSession s => s.maxPrediction
  | .spectatorSession _ => 0

/-! ### Snapshot histories (src/src/component_snapshot.rs,
src/src/resource_snapshot.rs)

A `VecDeque` is modelled by a list whose head is the deque front;
`push_front` is `List.cons` and `pop_back` is `List.dropLast`. -/

/-- Frame counter (`Frame(i32)`); wrap-around is irrelevant to the claims. -/
abbrev Frame := ℤ

/-- The value of the `Rollback` marker component: a stable id. -/
abbrev RollbackId := ℕ

/-- An engine-internal entity handle. -/
abbrev Entity := ℕ

/-- Models `HashMap::get` on an association list. -/
def listLookup {β : Type} (m : List (ℕ × β)) (k : ℕ) : Option β :=
  (m.find? (fun p => p.1 == k)).map Prod.snd

/-- Models `HashMap::insert` on an association list: replace the value of
an existing key, otherwise add the pair. -/
def listInsert {β : Type} (m : List (ℕ × β)) (k : ℕ) (v : β) : List (ℕ × β) :=
  match m with
  | [] => [(k, v)]
  | p :: rest => if p.1 = k then (k, v) :: rest else p :: listInsert rest k v

/-- One fuelled unfolding of the eviction while loop; each `pop_back`
shrinks the deque, so fuel equal to the initial length is never exhausted
before the loop condition fails. -/
def evictGo {α : Type} (w : ℕ) : ℕ → List α → List α
  | 0, states => states
  | fuel + 1, states =>
    if states.length > w then evictGo w fuel states.dropLast else states

/-- Models the eviction loop shared by `ComponentHistory::save` and
`ResourceHistory::save`:
`while states.len() > max_prediction_window { states.pop_back(); }`. -/
def evictLoop {α : Type} (w : ℕ) (states : List α) : List α :=
  evictGo w states.length states

/-- Models the `ComponentHistory<C>` resource: per-frame maps from
`Rollback` id to component value, most recent first. -/
structure ComponentHistory (C : Type) where
  states : List (Frame × List (RollbackId × C))
deriving DecidableEq

/-- The `states.push_front((*frame, map))` step of `ComponentHistory::save`. -/
def ComponentHistory.pushStep {C : Type} (frame : Frame)
    (map : List (RollbackId × C)) (h : ComponentHistory C) : ComponentHistory C :=
  ⟨(frame, map) :: h.states⟩

/-- Models `ComponentHistory::save`: push the freshly collected map to the
front, then pop from the back while the size exceeds the session's maximum
prediction window `w`.  The query collection of `(Rollback, C)` pairs is
abstracted as the given `map`. -/
def ComponentHistory.save {C : Type} (frame : Frame)
    (map : List (RollbackId × C)) (w : ℕ) (h : ComponentHistory C) :
    ComponentHistory C :=
  ⟨evictLoop w (ComponentHistory.pushStep frame map h).states⟩

/-- A sequence of `ComponentHistory::save` calls starting from the default
(empty) history, in call order. -/
def ComponentHistory.saveSeq {C : Type} (w : ℕ)
    (pushes : List (Frame × List (RollbackId × C))) : ComponentHistory C :=
  pushes.foldl (fun h p => ComponentHistory.save p.1 p.2 w h) ⟨[]⟩

/-- Models the `ResourceHistory<R>` resource: per-frame optional resource
values, most recent first. -/
structure ResourceHistory (R : Type) where
  states : List (Frame × Option R)
deriving DecidableEq

/-- The `states.push_front((*frame, snapshot))` step of
`ResourceHistory::save`. -/
def ResourceHistory.pushStep {R : Type} (frame : Frame) (snapshot : Option R)
    (h : ResourceHistory R) : ResourceHistory R :=
  ⟨(frame, snapshot) :: h.states⟩

/-- Models `ResourceHistory::save`: push the cloned resource snapshot to
the front, then pop from the back while the size exceeds `w`. -/
def ResourceHistory.save {R : Type} (frame : Frame) (snapshot : Option R)
    (w : ℕ) (h : ResourceHistory R) : ResourceHistory R :=
  ⟨evictLoop w (ResourceHistory.pushStep frame snapshot h).states⟩

/-- A sequence of `ResourceHistory::save` calls starting from the default
(empty) history, in call order. -/
def ResourceHistory.saveSeq {R : Type} (w : ℕ)
    (pushes : List (Frame × Option R)) : ResourceHistory R :=
  pushes.foldl (fun h p => ResourceHistory.save p.1 p.2 w h) ⟨[]⟩

/-- Outcome of a load system.  `panics` models an `expect`/`assert!`
failure; `warned` models `warn!` followed by an early `return`. -/
inductive LoadOutcome (α : Type) where
  | panics
  | warned
  | ok (a : α)
deriving DecidableEq

/-- Models `ComponentHistory::load`.  The world is the query result: per
entity its `Rollback` id and the optional component of type `C`.  A missing
snapshot entry for the requested frame panics (`expect`); afterwards each
entity's component is overwritten, inserted or removed according to the
snapshot map, and the final assertion panics unless every snapshot entry
was written back. -/
def ComponentHistory.load {C : Type} (frame : Frame) (h : ComponentHistory C)
    (world : List (Entity × RollbackId × Option C)) :
    LoadOutcome (List (Entity × RollbackId × Option C)) :=
  match h.states.find? (fun s => s.1 == frame) with
  | none => .panics
  | some fmap =>
    let map := fmap.2
    let step := fun (acc : List (Entity × RollbackId × Option C) × ℕ)
        (e : Entity × RollbackId × Option C) =>
      match e.2.2, listLookup map e.2.1 with
      | none, none => (acc.1 ++ [(e.1, e.2.1, none)], acc.2)
      | none, some s => (acc.1 ++ [(e.1, e.2.1, some s)], acc.2 + 1)
      | some _, none => (acc.1 ++ [(e.1, e.2.1, none)], acc.2)
      | some _, some s => (acc.1 ++ [(e.1, e.2.1, some s)], acc.2 + 1)
    let done := world.foldl step ([], 0)
    if done.2 = map.length then .ok done.1 else .panics

/-- Models `ResourceHistory::load`.  A missing snapshot entry for the
requested frame logs a warning and returns early, leaving the resource
untouched; otherwise the resource is overwritten, inserted or removed
according to the snapshot. -/
def ResourceHistory.load {R : Type} (frame : Frame) (h : ResourceHistory R)
    (resource : Option R) : LoadOutcome (Option R) :=
  match h.states.find? (fun s => s.1 == frame) with
  | none => .warned
  | some fsnap =>
    match resource, fsnap.2 with
    | none, none => .ok none
    | none, some s => .ok (some s)
    | some _, none => .ok none
    | some _, some s => .ok (some s)

/-! ### Fixed-timestep driver (src/src/ggrs_stage.rs)

Durations and the f64 tick period are modelled as exact rationals; the
claims and counterexample below only involve values on which the f64
computation is exact. -/

/-- The timing fields of `GGRSStage`. -/
structure FixedTimestep where
  updateFrequency : ℕ
  accumulator : ℚ
  runSlow : Bool

/-- The nominal tick period `1. / stage.update_frequency`. -/
def nominalPeriod (stage : FixedTimestep) : ℚ :=
  1 / (stage.updateFrequency : ℚ)

/-- The adjusted tick period: `fps_delta *= 1.1` when in run-slow mode. -/
def adjustedPeriod (stage : FixedTimestep) : ℚ :=
  if stage.runSlow then nominalPeriod stage * (11 / 10) else nominalPeriod stage

/-- Models the driver's while loop:
`while accumulator.as_secs_f64() > fps_delta { accumulator -= fps_delta; tick(); }`.
Returns the number of ticks fired and the remaining accumulator.  The
`0 < d` guard makes the recursion total; it is faithful, since in f64 a
zero update frequency yields an infinite period and the loop never runs. -/
def tickLoop (d acc : ℚ) : ℕ × ℚ :=
  if h : 0 < d ∧ d < acc then
    let r := tickLoop d (acc - d)
    (r.1 + 1, r.2)
  else
    (0, acc)
termination_by (⌈acc / d⌉).toNat
decreasing_by
  obtain ⟨hd, hlt⟩ := h
  have hne : d ≠ 0 := ne_of_gt hd
  have hq : (acc - d) / d = acc / d - 1 := by
    field_simp
  rw [hq, Int.ceil_sub_one]
  have h1 : (1 : ℚ) < acc / d := (one_lt_div hd).mpr hlt
  have h2 : (1 : ℤ) < ⌈acc / d⌉ := by
    exact_mod_cast lt_of_lt_of_le h1 (Int.le_ceil _)
  omega

/-- The observable outcome of one `GGRSStage::run` invocation. -/
structure RunResult where
  polled : Bool
  ticks : ℕ
  accumulator : ℚ
deriving DecidableEq

/-- Models `GGRSStage::run`: compute the adjusted period, accumulate the
elapsed time, poll the session if present (unconditionally with respect to
the accumulator), then run the tick loop.  The per-tick session dispatch
and request execution are modelled separately. -/
def GGRSStage.run (stage : FixedTimestep) (delta : ℚ) (sessionPresent : Bool) :
    RunResult :=
  let fpsDelta := adjustedPeriod stage
  let acc := stage.accumulator + delta
  let r := tickLoop fpsDelta acc
  { polled := sessionPresent, ticks := r.1, accumulator := r.2 }

/-! ### Session errors and request execution (src/src/ggrs_stage.rs) -/

/-- Models `ggrs::GGRSError` as far as the driver distinguishes cases. -/
inductive GGRSError where
  | predictionThreshold
  | otherError
deriving DecidableEq

/-- Models `ggrs::GGRSRequest`, keeping the data the executor uses. -/
inductive GGRSRequest where
  | saveGameState (frame : Frame)
  | loadGameState (frame : Frame)
  | advanceFrame
deriving DecidableEq

/-- The request-producing tail of `GGRSStage::run_p2p`: when the session is
running, `advance_frame` either yields the requests, or on
`PredictionThreshold` the tick is skipped (`info!`) and on any other error
it is skipped too (`warn!`); both return an empty request list. -/
def runP2pRequests (running : Bool)
    (advanceResult : Except GGRSError (List GGRSRequest)) : List GGRSRequest :=
  if running then
    match advanceResult with
    | .ok requests => requests
    | .error .predictionThreshold => []
    | .error .otherError => []
  else
    []

/-- The request-producing tail of `GGRSStage::run_spectator`, identical in
structure to the p2p case. -/
def runSpectatorRequests (running : Bool)
    (advanceResult : Except GGRSError (List GGRSRequest)) : List GGRSRequest :=
  if running then
    match advanceResult with
    | .ok requests => requests
    | .error .predictionThreshold => []
    | .error .otherError => []
  else
    []

/-- The state the request executor mutates: the `Frame` resource, the
stage's frame counter, the rollback-relevant world content and the two
snapshot histories. -/
structure ExecState (C R : Type) where
  frame : Frame
  stageFrame : Frame
  world : List (Entity × RollbackId × Option C)
  resource : Option R
  compHistory : ComponentHistory C
  resHistory : ResourceHistory R

/-- Collects the `Query<(&C, &Rollback)>` result into a map, as the save
system's `for (component, flag) in query { map.insert(*flag, ...) }` loop. -/
def collectSnapshot {C : Type} (world : List (Entity × RollbackId × Option C)) :
    List (RollbackId × C) :=
  world.foldl
    (fun m e =>
      match e.2.2 with
      | some c => listInsert m e.2.1 c
      | none => m)
    []

/-- Models the dispatch of one `GGRSRequest` in `GGRSStage::run`: a save
runs the save schedule against the live state, a load runs the load
schedule (`none` models a panic inside it), an advance runs the game logic
and increments the frame counter. -/
def executeRequest {C R : Type} (w : ℕ)
    (advanceLogic : ExecState C R → ExecState C R) :
    GGRSRequest → ExecState C R → Option (ExecState C R)
  | .saveGameState f, s =>
    some { s with
      frame := f
      compHistory := ComponentHistory.save f (collectSnapshot s.world) w s.compHistory
      resHistory := ResourceHistory.save f s.resource w s.resHistory }
  | .loadGameState f, s =>
    (match ComponentHistory.load f s.compHistory s.world with
    | .panics => none
    | .warned => none
    | .ok world2 =>
      match ResourceHistory.load f s.resHistory s.resource with
      | .panics => none
      | .warned => some { s with frame := f, world := world2 }
      | .ok res2 => some { s with frame := f, world := world2, resource := res2 })
  | .advanceFrame, s =>
    let s2 := advanceLogic s
    some { s2 with frame := s.frame + 1, stageFrame := s.frame + 1 }

/-- Executes the ordered request list, as the `for request in requests`
loop of `GGRSStage::run`. -/
def executeRequests {C R : Type} (w : ℕ)
    (advanceLogic : ExecState C R → ExecState C R) :
    List GGRSRequest → ExecState C R → Option (ExecState C R)
  | [], s => some s
  | r :: rest, s =>
    match executeRequest w advanceLogic r s with
    | none => none
    | some s2 => executeRequests w advanceLogic rest s2

/-! ### Checksum parts (src/src/snapshot/entity_checksum.rs,
src/src/snapshot/resource_checksum_hash.rs)

Both hashers (`bevy::utils::FixedState` and `DefaultHasher`) are built
with fixed keys; they are modelled by a concrete deterministic 64-bit
mixing function over the stream of `u64` words written to them. -/

/-- A per-state-kind checksum value. -/
abbrev ChecksumPart := ℕ

/-- One mixing step of the modelled 64-bit hasher. -/
def hashWord (h v : ℕ) : ℕ :=
  ((h ^^^ v) * 0x100000001b3) % 2 ^ 64

/-- The modelled fixed-key 64-bit hasher over a stream of `u64` words. -/
def hashU64Stream (words : List ℕ) : ℕ :=
  words.foldl hashWord 0xcbf29ce484222325

/-- Models `EntityChecksumPlugin::update`: hash the count of live rollback
entities and the count of ever-spawned rollback entities
(`rollback_ordered.len()`), then overwrite the existing `ChecksumPart` or
spawn a fresh one.  Returns the part and whether a fresh entity was
spawned. -/
def EntityChecksumPlugin.update (activeEntities totalSpawned : ℕ)
    (existing : Option ChecksumPart) : ChecksumPart × Bool :=
  let result := hashU64Stream [activeEntities, totalSpawned]
  match existing with
  | some _ => (result, false)
  | none => (result, true)

/-- Models `GgrsResourceChecksumHashPlugin::update`: hash the stream of
words the resource's `Hash` implementation writes, then overwrite the
existing `ChecksumPart` or spawn a fresh one. -/
def GgrsResourceChecksumHashPlugin.update (resourceHashWords : List ℕ)
    (existing : Option ChecksumPart) : ChecksumPart × Bool :=
  let result := hashU64Stream resourceHashWords
  match existing with
  | some _ => (result, false)
  | none => (result, true)

/-! ### Entity identity reconciliation (src/src/snapshot/entity.rs)

`GgrsEntitySnapshotPlugin::load` rebuilds the live rollback-entity set to
match the historical snapshot.  The two `HashMap`s are modelled as
association lists with deterministic iteration order (Rust's `HashMap`
iteration order is arbitrary; the claims are order-insensitive).
`Commands::spawn_empty` is modelled by allocating ids from a counter. -/

/-- A `rollback_mapping` value: `(Option<current Entity>, Option<old Entity>)`. -/
abbrev MapEntry := Option Entity × Option Entity

/-- The keys of an association list. -/
def keys {β : Type} (m : List (ℕ × β)) : List ℕ :=
  m.map Prod.fst

/-- Models `rollback_mapping.entry(rollback).or_insert((None, None)).0 =
Some(current_entity)`: update the current-entity slot of an existing
entry, or add a fresh entry whose old-entity slot is `None`. -/
def entrySetCurrent (m : List (RollbackId × MapEntry)) (k : RollbackId)
    (cur : Entity) : List (RollbackId × MapEntry) :=
  match m with
  | [] => [(k, (some cur, none))]
  | p :: rest =>
    if p.1 = k then (p.1, (some cur, p.2.2)) :: rest
    else p :: entrySetCurrent rest k cur

/-- Builds `rollback_mapping`: first every snapshot pair is inserted as
`(None, Some(old_entity))`, then every live pair sets the current slot. -/
def buildRollbackMapping (snapshot current : List (RollbackId × Entity)) :
    List (RollbackId × MapEntry) :=
  let m1 := snapshot.foldl (fun m p => listInsert m p.1 (none, some p.2)) []
  current.foldl (fun m p => entrySetCurrent m p.1 p.2) m1

/-- The observable effect of `GgrsEntitySnapshotPlugin::load`: the
`EntityMap` insertions, the despawned entities and the spawned
placeholder entities. -/
structure ReconcileResult where
  entityMap : List (Entity × Entity)
  despawned : List Entity
  spawned : List Entity
deriving DecidableEq

/-- Models the `for (current_entity, old_entity) in rollback_mapping.values()`
loop: both present inserts `(current, old)` into the map; current-only
despawns; old-only spawns a placeholder (fresh id from the counter) and
inserts `(old, new)`.  The `(None, None)` case is `unreachable!` in the
source and contributes nothing. -/
def processMapping : List (RollbackId × MapEntry) → Entity → ReconcileResult
  | [], _ => ⟨[], [], []⟩
  | (_, (some cur, some old)) :: rest, fresh =>
    let r := processMapping rest fresh
    { r with entityMap := (cur, old) :: r.entityMap }
  | (_, (some cur, none)) :: rest, fresh =>
    let r := processMapping rest fresh
    { r with despawned := cur :: r.despawned }
  | (_, (none, some old)) :: rest, fresh =>
    let r := processMapping rest (fresh + 1)
    { r with entityMap := (old, fresh) :: r.entityMap, spawned := fresh :: r.spawned }
  | (_, (none, none)) :: rest, fresh => processMapping rest fresh

/-- Models `GgrsEntitySnapshotPlugin::load`: reconcile the live set
(`current`, from the query) against the historical set (`snapshot`, from
the rollback lookup for the target frame). -/
def GgrsEntitySnapshotPlugin.load (snapshot current : List (RollbackId × Entity))
    (freshBase : Entity) : ReconcileResult :=
  processMapping (buildRollbackMapping snapshot current) freshBase

/-- Specification helper: the effect of the second `rollback_mapping`
pass on one existing entry — if the key is live, its current slot becomes
the live entity; otherwise the entry is unchanged. -/
def updEntry (cur : List (RollbackId × Entity)) (e : RollbackId × MapEntry) :
    RollbackId × MapEntry :=
  match listLookup cur e.1 with
  | some c => (e.1, (some c, e.2.2))
  | none => e

/-! ## Supporting lemmas -/

theorem evictGo_eq_take {α : Type} (w : ℕ) :
    ∀ (fuel : ℕ) (l : List α), l.length ≤ fuel → evictGo w fuel l = l.take w := by
  intro fuel
  induction fuel with
  | zero =>
    intro l hl
    have h0 : l = [] := List.length_eq_zero.mp (Nat.le_zero.mp hl)
    subst h0
    simp [evictGo]
  | succ n ih =>
    intro l hl
    rw [evictGo]
    split
    case isTrue h =>
      rw [ih l.dropLast (by simp only [List.length_dropLast]; omega)]
      rw [List.dropLast_eq_take, List.take_take]
      have hmin : min w (l.length - 1) = w := by omega
      rw [hmin]
    case isFalse h =>
      rw [List.take_of_length_le (by omega)]

theorem evictLoop_eq_take {α : Type} (w : ℕ) (l : List α) :
    evictLoop w l = l.take w :=
  evictGo_eq_take w l.length l le_rfl

theorem take_cons_take {α : Type} (a : α) (l : List α) (w : ℕ) :
    (a :: l.take w).take w = (a :: l).take w := by
  cases w with
  | zero => simp
  | succ n =>
    simp only [List.take_succ_cons, List.take_take]
    have hmin : min n (n + 1) = n := by omega
    rw [hmin]

theorem componentSave_states {C : Type} (frame : Frame)
    (map : List (RollbackId × C)) (w : ℕ) (h : ComponentHistory C) :
    (ComponentHistory.save frame map w h).states = ((frame, map) :: h.states).take w :=
  evictLoop_eq_take w _

theorem resourceSave_states {R : Type} (frame : Frame) (snap : Option R)
    (w : ℕ) (h : ResourceHistory R) :
    (ResourceHistory.save frame snap w h).states = ((frame, snap) :: h.states).take w :=
  evictLoop_eq_take w _

theorem componentSaveSeq_aux {C : Type} (w : ℕ) :
    ∀ (ps : List (Frame × List (RollbackId × C))) (hs : List (Frame × List (RollbackId × C))),
      (ps.foldl (fun h p => ComponentHistory.save p.1 p.2 w h) ⟨hs.take w⟩).states
        = (ps.reverse ++ hs).take w := by
  intro ps
  induction ps with
  | nil => intro hs; simp
  | cons p rest ih =>
    intro hs
    have h1 : (ComponentHistory.save p.1 p.2 w ⟨hs.take w⟩).states
        = ((p.1, p.2) :: hs).take w := by
      rw [componentSave_states]
      exact take_cons_take _ _ _
    have hstep : ComponentHistory.save p.1 p.2 w ⟨hs.take w⟩
        = ⟨((p.1, p.2) :: hs).take w⟩ := congrArg ComponentHistory.mk h1
    simp only [List.foldl_cons, hstep]
    have := ih ((p.1, p.2) :: hs)
    rw [this]
    simp

theorem resourceSaveSeq_aux {R : Type} (w : ℕ) :
    ∀ (ps : List (Frame × Option R)) (hs : List (Frame × Option R)),
      (ps.foldl (fun h p => ResourceHistory.save p.1 p.2 w h) ⟨hs.take w⟩).states
        = (ps.reverse ++ hs).take w := by
  intro ps
  induction ps with
  | nil => intro hs; simp
  | cons p rest ih =>
    intro hs
    have h1 : (ResourceHistory.save p.1 p.2 w ⟨hs.take w⟩).states
        = ((p.1, p.2) :: hs).take w := by
      rw [resourceSave_states]
      exact take_cons_take _ _ _
    have hstep : ResourceHistory.save p.1 p.2 w ⟨hs.take w⟩
        = ⟨((p.1, p.2) :: hs).take w⟩ := congrArg ResourceHistory.mk h1
    simp only [List.foldl_cons, hstep]
    have := ih ((p.1, p.2) :: hs)
    rw [this]
    simp

theorem componentSaveSeq_states {C : Type} (w : ℕ)
    (ps : List (Frame × List (RollbackId × C))) :
    (ComponentHistory.saveSeq w ps).states = ps.reverse.take w := by
  have := componentSaveSeq_aux (C := C) w ps []
  simpa [ComponentHistory.saveSeq] using this

theorem resourceSaveSeq_states {R : Type} (w : ℕ) (ps : List (Frame × Option R)) :
    (ResourceHistory.saveSeq w ps).states = ps.reverse.take w := by
  have := resourceSaveSeq_aux (R := R) w ps []
  simpa [ResourceHistory.saveSeq] using this

/-! ## Claim theorems (part 1) -/

/-- C2 (amended): the history store inserts the newest entry at the front
and then — not before — discards entries beyond the window, so after every
save the size is at most W; after any number of pushes it retains exactly
the `min W n` most recently pushed entries, evicted strictly FIFO by
insertion order, regardless of gaps in the pushed frame numbers. -/
theorem C2_history_window_fifo :
    (∀ (C : Type) (frame : Frame) (map : List (RollbackId × C)) (w : ℕ)
        (h : ComponentHistory C),
      (ComponentHistory.save frame map w h).states
        = ((frame, map) :: h.states).take w) ∧
    (∀ (C : Type) (w : ℕ) (ps : List (Frame × List (RollbackId × C))),
      (ComponentHistory.saveSeq w ps).states = ps.reverse.take w ∧
      (ComponentHistory.saveSeq w ps).states.length = min w ps.length) ∧
    (∀ (R : Type) (frame : Frame) (snap : Option R) (w : ℕ)
        (h : ResourceHistory R),
      (ResourceHistory.save frame snap w h).states
        = ((frame, snap) :: h.states).take w) ∧
    (∀ (R : Type) (w : ℕ) (ps : List (Frame × Option R)),
      (ResourceHistory.saveSeq w ps).states = ps.reverse.take w ∧
      (ResourceHistory.saveSeq w ps).states.length = min w ps.length) := by
  refine ⟨?_, ?_, ?_, ?_⟩
  · intro C frame map w h
    exact componentSave_states frame map w h
  · intro C w ps
    refine ⟨componentSaveSeq_states w ps, ?_⟩
    rw [componentSaveSeq_states w ps]
    simp
  · intro R frame snap w h
    exact resourceSave_states frame snap w h
  · intro R w ps
    refine ⟨resourceSaveSeq_states w ps, ?_⟩
    rw [resourceSaveSeq_states w ps]
    simp

/-- C2 fails as stated: eviction does not happen before insertion.  With
window W = 1, during the second save the push step runs first and leaves
the history holding 2 > W entries; only afterwards does the eviction loop
shrink it.  Hence the size is not at most W "at all times". -/
theorem C2_counterexample :
    (ComponentHistory.pushStep 1 []
        (ComponentHistory.save (C := ℕ) 0 [] 1 ⟨[]⟩)).states.length = 2 ∧
    1 < (ComponentHistory.pushStep 1 []
        (ComponentHistory.save (C := ℕ) 0 [] 1 ⟨[]⟩)).states.length := by
  constructor <;> decide

/-- C3 (amended): a Load whose frame has no entry in the history is
handled asymmetrically — the component-history load panics, while the
resource-history load merely logs a warning and returns early, leaving the
resource untouched (no partial restore). -/
theorem C3_missing_frame_load :
    (∀ (C : Type) (frame : Frame) (h : ComponentHistory C)
        (world : List (Entity × RollbackId × Option C)),
      (∀ e ∈ h.states, e.1 ≠ frame) →
      ComponentHistory.load frame h world = .panics) ∧
    (∀ (R : Type) (frame : Frame) (h : ResourceHistory R) (res : Option R),
      (∀ e ∈ h.states, e.1 ≠ frame) →
      ResourceHistory.load frame h res = .warned) := by
  constructor
  · intro C frame h world hmem
    have hf : h.states.find? (fun s => s.1 == frame) = none := by
      rw [List.find?_eq_none]
      intro x hx
      simp [hmem x hx]
    simp [ComponentHistory.load, hf]
  · intro R frame h res hmem
    have hf : h.states.find? (fun s => s.1 == frame) = none := by
      rw [List.find?_eq_none]
      intro x hx
      simp [hmem x hx]
    simp [ResourceHistory.load, hf]

/-- Witness for C3: with an empty history, loading frame 0 panics for the
component history and warns for the resource history. -/
theorem C3_missing_frame_load_witness :
    ((∀ e ∈ (⟨[]⟩ : ComponentHistory ℕ).states, e.1 ≠ (0 : Frame)) ∧
      ComponentHistory.load (C := ℕ) 0 ⟨[]⟩ [] = .panics) ∧
    ((∀ e ∈ (⟨[]⟩ : ResourceHistory ℕ).states, e.1 ≠ (0 : Frame)) ∧
      ResourceHistory.load (R := ℕ) 0 ⟨[]⟩ none = .warned) :=
  ⟨⟨by simp, C3_missing_frame_load.1 ℕ 0 ⟨[]⟩ [] (by simp)⟩,
    ⟨by simp, C3_missing_frame_load.2 ℕ 0 ⟨[]⟩ none (by simp)⟩⟩

/-- C3 fails as stated for the resource history: with an empty history,
loading frame 0 does not panic — it logs a warning and returns with the
resource untouched. -/
theorem C3_counterexample :
    ResourceHistory.load (R := ℕ) 0 ⟨[]⟩ none = .warned ∧
    ResourceHistory.load (R := ℕ) 0 ⟨[]⟩ none ≠ .panics := by
  constructor <;> decide

/-- C5: `set(None)` writes the NaN bit pattern into both fields and the
result decodes to no cursor, regardless of the prior contents; the default
value also decodes to no cursor. -/
theorem C5_cursor_absent_sentinel :
    (∀ prior : MousePositionInput,
      MousePositionInput.set prior none = ⟨f32NANBits, f32NANBits⟩ ∧
      (MousePositionInput.set prior none).get = none) ∧
    MousePositionInput.get MousePositionInput.default = none := by
  refine ⟨?_, by decide⟩
  intro prior
  refine ⟨rfl, ?_⟩
  have h : MousePositionInput.set prior none = ⟨f32NANBits, f32NANBits⟩ := rfl
  rw [h]
  decide

/-- C6: the entity `ChecksumPart` is a deterministic function of exactly
the live-rollback-entity count and the ever-spawned count — any two worlds
agreeing on those counts produce the same part, whatever checksum entity
already exists — and the resource `ChecksumPart` is a deterministic hash
of the resource's written value. -/
theorem C6_checksum_deterministic :
    (∀ (a1 l1 a2 l2 : ℕ) (e1 e2 : Option ChecksumPart),
      a1 = a2 → l1 = l2 →
      (EntityChecksumPlugin.update a1 l1 e1).1
        = (EntityChecksumPlugin.update a2 l2 e2).1) ∧
    (∀ (ws1 ws2 : List ℕ) (e1 e2 : Option ChecksumPart),
      ws1 = ws2 →
      (GgrsResourceChecksumHashPlugin.update ws1 e1).1
        = (GgrsResourceChecksumHashPlugin.update ws2 e2).1) := by
  constructor
  · rintro a1 l1 a2 l2 e1 e2 rfl rfl
    cases e1 <;> cases e2 <;> rfl
  · rintro ws1 ws2 e1 e2 rfl
    cases e1 <;> cases e2 <;> rfl

/-- Witness for C6: two worlds agreeing on the counts 3 and 5 (and on a
resource hash stream) produce identical parts whether or not a checksum
entity already existed. -/
theorem C6_checksum_deterministic_witness :
    (EntityChecksumPlugin.update 3 5 none).1
      = (EntityChecksumPlugin.update 3 5 (some 0)).1 ∧
    (GgrsResourceChecksumHashPlugin.update [1, 2] none).1
      = (GgrsResourceChecksumHashPlugin.update [1, 2] (some 7)).1 :=
  ⟨C6_checksum_deterministic.1 3 5 3 5 none (some 0) rfl rfl,
    C6_checksum_deterministic.2 [1, 2] [1, 2] none (some 7) rfl⟩

/-- C8: a `PredictionThreshold` failure of `advance_frame` yields an empty
request list in both the p2p and the spectator runner, and executing an
empty request list leaves the executor state — frame counters, world and
both snapshot histories — unchanged. -/
theorem C8_prediction_threshold_skips :
    (∀ running : Bool,
      runP2pRequests running (.error .predictionThreshold) = []) ∧
    (∀ running : Bool,
      runSpectatorRequests running (.error .predictionThreshold) = []) ∧
    (∀ (C R : Type) (w : ℕ) (adv : ExecState C R → ExecState C R)
        (s : ExecState C R),
      executeRequests w adv [] s = some s) := by
  refine ⟨?_, ?_, ?_⟩
  · intro running
    cases running <;> rfl
  · intro running
    cases running <;> rfl
  · intro C R w adv s
    rfl

/-- C9: `max_prediction_window` returns 0 for a Spectator session and the
configured maximum prediction for SyncTest and P2P sessions. -/
theorem C9_max_prediction_window :
    (∀ s : SpectatorSession,
      Session.max_prediction_window (.spectatorSession s) = 0) ∧
    (∀ s : SyncTestSession,
      Session.max_prediction_window (.syncTestSession s) = s.maxPrediction) ∧
    (∀ s : P2PSession,
      Session.max_prediction_window (.p2pSession s) = s.maxPrediction) :=
  ⟨fun _ => rfl, fun _ => rfl, fun _ => rfl⟩

/-- C10: `get` returns `none` whenever either decoded coordinate is
non-finite — not only for the both-fields-NaN sentinel — and consequently
`set(Some p)` followed by `get` returns `none` for every position with a
non-finite coordinate. -/
theorem C10_nonfinite_decodes_none :
    (∀ i : MousePositionInput,
      f32IsFinite i.x = false ∨ f32IsFinite i.y = false →
      i.get = none) ∧
    (∀ (p : Vec2) (prior : MousePositionInput),
      f32IsFinite p.x = false ∨ f32IsFinite p.y = false →
      (prior.set (some p)).get = none) := by
  constructor
  · intro i hi
    rcases hi with h | h <;> simp [MousePositionInput.get, h]
  · intro p prior hp
    have h : prior.set (some p) = ⟨p.x, p.y⟩ := rfl
    rcases hp with hx | hx <;> simp [h, MousePositionInput.get, hx]

/-- Witness for C10: positive infinity in the x field alone (y finite)
already decodes to no cursor, both directly and through `set`. -/
theorem C10_nonfinite_decodes_none_witness :
    (f32IsFinite 0x7F800000 = false ∨ f32IsFinite (0 : F32Bits) = false) ∧
    MousePositionInput.get ⟨0x7F800000, 0⟩ = none ∧
    (MousePositionInput.set ⟨0, 0⟩ (some ⟨0x7F800000, 0⟩)).get = none :=
  ⟨Or.inl (by decide),
    C10_nonfinite_decodes_none.1 ⟨0x7F800000, 0⟩ (Or.inl (by decide)),
    C10_nonfinite_decodes_none.2 ⟨0x7F800000, 0⟩ ⟨0, 0⟩ (Or.inl (by decide))⟩

/-! ## Driver lemmas and claim C7 -/

theorem tickLoop_le_iff (d : ℚ) (hd : 0 < d) :
    ∀ (k : ℕ) (acc : ℚ), (tickLoop d acc).1 ≤ k ↔ acc ≤ ((k : ℚ) + 1) * d := by
  intro k
  induction k with
  | zero =>
    intro acc
    rw [tickLoop]
    by_cases h : d < acc
    · rw [dif_pos ⟨hd, h⟩]
      show (tickLoop d (acc - d)).1 + 1 ≤ 0 ↔ _
      constructor
      · intro hc
        omega
      · intro hc
        push_cast at hc
        linarith
    · rw [dif_neg (by tauto)]
      show (0 : ℕ) ≤ 0 ↔ _
      simp only [le_refl, true_iff]
      push_cast
      linarith [not_lt.mp h]
  | succ n ih =>
    intro acc
    rw [tickLoop]
    by_cases h : d < acc
    · rw [dif_pos ⟨hd, h⟩]
      show (tickLoop d (acc - d)).1 + 1 ≤ n + 1 ↔ _
      have h2 := ih (acc - d)
      constructor
      · intro hc
        have hc2 := h2.mp (by omega)
        push_cast at hc2 ⊢
        linarith
      · intro hc
        have hc2 : acc - d ≤ ((n : ℚ) + 1) * d := by
          push_cast at hc ⊢
          linarith
        have := h2.mpr hc2
        omega
    · rw [dif_neg (by tauto)]
      show (0 : ℕ) ≤ n + 1 ↔ _
      simp only [Nat.zero_le, true_iff]
      have hda : acc ≤ d := not_lt.mp h
      have hdm : d ≤ ((n : ℚ) + 1 + 1) * d := by
        nlinarith [Nat.cast_nonneg (α := ℚ) n]
      push_cast
      linarith

theorem tickLoop_anti (d d' acc : ℚ) (hd : 0 < d) (hdd : d ≤ d') :
    (tickLoop d' acc).1 ≤ (tickLoop d acc).1 := by
  have hd' : 0 < d' := lt_of_lt_of_le hd hdd
  rw [tickLoop_le_iff d' hd']
  have h1 := (tickLoop_le_iff d hd (tickLoop d acc).1 acc).mp le_rfl
  calc acc ≤ (((tickLoop d acc).1 : ℚ) + 1) * d := h1
    _ ≤ (((tickLoop d acc).1 : ℚ) + 1) * d' := by
        apply mul_le_mul_of_nonneg_left hdd
        positivity

theorem adjustedPeriod_pos (stage : FixedTimestep)
    (hf : 0 < stage.updateFrequency) : 0 < adjustedPeriod stage := by
  have h0 : (0 : ℚ) < (stage.updateFrequency : ℚ) := by exact_mod_cast hf
  unfold adjustedPeriod nominalPeriod
  split <;> positivity

/-- C7 (amended): on each driver invocation the adjusted tick period is
1.1 times the nominal period 1/fps exactly when run-slow mode is on; the
elapsed time is added to the accumulator; the session is polled
unconditionally (whether or not any tick fires); and ticks fire while the
accumulator STRICTLY exceeds the adjusted period (the source compares with
`>`, not the claimed `≥`), each subtracting the period and attempting one
frame advance — so run-slow mode fires at most as many ticks per unit of
real time. -/
theorem C7_driver_accumulator :
    (∀ stage : FixedTimestep, stage.runSlow = true →
      adjustedPeriod stage = 1 / (stage.updateFrequency : ℚ) * (11 / 10)) ∧
    (∀ stage : FixedTimestep, stage.runSlow = false →
      adjustedPeriod stage = 1 / (stage.updateFrequency : ℚ)) ∧
    (∀ (stage : FixedTimestep) (delta : ℚ) (present : Bool),
      GGRSStage.run stage delta present =
        ⟨present, (tickLoop (adjustedPeriod stage) (stage.accumulator + delta)).1,
          (tickLoop (adjustedPeriod stage) (stage.accumulator + delta)).2⟩) ∧
    (∀ (stage : FixedTimestep) (delta : ℚ) (k : ℕ) (present : Bool),
      0 < stage.updateFrequency →
      ((GGRSStage.run stage delta present).ticks ≤ k ↔
        stage.accumulator + delta ≤ ((k : ℚ) + 1) * adjustedPeriod stage)) ∧
    (∀ (freq : ℕ) (acc delta : ℚ) (present : Bool),
      0 < freq →
      (GGRSStage.run ⟨freq, acc, true⟩ delta present).ticks ≤
        (GGRSStage.run ⟨freq, acc, false⟩ delta present).ticks) := by
  refine ⟨?_, ?_, ?_, ?_, ?_⟩
  · intro stage hs
    unfold adjustedPeriod nominalPeriod
    rw [hs]
    simp
  · intro stage hs
    unfold adjustedPeriod nominalPeriod
    rw [hs]
    simp
  · intro stage delta present
    rfl
  · intro stage delta k present hf
    exact tickLoop_le_iff (adjustedPeriod stage) (adjustedPeriod_pos stage hf) k
      (stage.accumulator + delta)
  · intro freq acc delta present hf
    have h0 : (0 : ℚ) < (freq : ℚ) := by exact_mod_cast hf
    have hnom : (0 : ℚ) < 1 / (freq : ℚ) := by positivity
    have hle : adjustedPeriod ⟨freq, acc, false⟩ ≤ adjustedPeriod ⟨freq, acc, true⟩ := by
      simp only [adjustedPeriod, nominalPeriod, if_pos, if_neg, Bool.false_eq_true,
        if_false, if_true, reduceIte]
      nlinarith
    exact tickLoop_anti _ _ _ (by simpa [adjustedPeriod, nominalPeriod] using hnom) hle

/-- Witness for C7: with fps 1, run-slow off, an empty accumulator and one
second of elapsed time, zero ticks fire and indeed the accumulator equals
(hence does not strictly exceed) the period. -/
theorem C7_driver_accumulator_witness :
    0 < (1 : ℕ) ∧
    ((GGRSStage.run ⟨1, 0, false⟩ 1 true).ticks ≤ 0 ↔
      (0 : ℚ) + 1 ≤ ((0 : ℕ) + 1 : ℚ) * adjustedPeriod ⟨1, 0, false⟩) ∧
    (GGRSStage.run ⟨1, 0, true⟩ 1 true).ticks ≤
      (GGRSStage.run ⟨1, 0, false⟩ 1 true).ticks :=
  ⟨Nat.one_pos,
    C7_driver_accumulator.2.2.2.1 ⟨1, 0, false⟩ 1 0 true Nat.one_pos,
    C7_driver_accumulator.2.2.2.2 1 0 1 true Nat.one_pos⟩

/-- C7 fails as stated: the while condition is strict.  With fps 1 and
run-slow off the adjusted period is exactly 1; adding one second of
elapsed time makes the accumulator exactly equal to the adjusted period,
so the claimed `accumulator ≥ period` condition holds, yet the code fires
zero ticks (no frame advance is attempted).  Every quantity involved is
exactly representable in f64, so the rational model is exact here. -/
theorem C7_counterexample :
    (GGRSStage.run ⟨1, 0, false⟩ 1 true).ticks = 0 ∧
    (0 : ℚ) + 1 ≥ adjustedPeriod ⟨1, 0, false⟩ := by
  have hp : adjustedPeriod ⟨1, 0, false⟩ = 1 := by
    norm_num [adjustedPeriod, nominalPeriod]
  constructor
  · show (tickLoop (adjustedPeriod ⟨1, 0, false⟩) ((0 : ℚ) + 1)).1 = 0
    rw [hp, tickLoop, dif_neg (by norm_num)]
  · rw [hp]
    norm_num

/-! ## Input-codec lemmas and claim C4 -/

theorem decide_and_shift_eq_testBit (b ch : ℕ) :
    decide (b &&& 1 <<< ch ≠ 0) = b.testBit ch := by
  rw [Nat.one_shiftLeft]
  cases hbt : b.testBit ch with
  | false =>
    have h2 : b &&& 2 ^ ch = 0 := by
      apply Nat.eq_of_testBit_eq
      intro i
      rw [Nat.testBit_and, Nat.zero_testBit, Nat.testBit_two_pow]
      rcases eq_or_ne ch i with rfl | hne
      · rw [hbt]
        simp
      · simp [hne]
    simp [h2]
  | true =>
    have h1 : (b &&& 2 ^ ch).testBit ch = true := by
      rw [Nat.testBit_and, hbt, Nat.testBit_two_pow_self]
      rfl
    have h2 : b &&& 2 ^ ch ≠ 0 := by
      intro h0
      rw [h0, Nat.zero_testBit] at h1
      exact Bool.false_ne_true h1
    simp [h2]

theorem testBit_or_mask (b ch : ℕ) : (b ||| 1 <<< ch).testBit ch = true := by
  rw [Nat.one_shiftLeft, Nat.testBit_lor, Nat.testBit_two_pow_self, Bool.or_true]

theorem testBit_clear_mask (b ch : ℕ) (hch : ch < 8) :
    (b &&& (255 ^^^ 1 <<< ch)).testBit ch = false := by
  rw [Nat.one_shiftLeft, Nat.testBit_and, Nat.testBit_xor]
  have h255 : (255 : ℕ) = 2 ^ 8 - 1 := by norm_num
  rw [h255, Nat.testBit_two_pow_sub_one, Nat.testBit_two_pow_self]
  simp [hch]

theorem keycode_set_get (i : KeyCodeInput) (kc : ℕ) (v : Bool)
    (hkc : kc < 168) (hlen : i.keycodes.length = 21) :
    Option.bind (i.set kc v) (fun j => j.get kc) = some v := by
  have hch : kc % 8 < 8 := by omega
  have hbank : (kc - kc % 8) / 8 < 21 := by omega
  have hbank2 : (kc - kc % 8) / 8 < i.keycodes.length := by omega
  obtain ⟨b, hb⟩ : ∃ b, i.keycodes.get? ((kc - kc % 8) / 8) = some b :=
    ⟨_, List.get?_eq_get hbank2⟩
  simp only [KeyCodeInput.set, KeyCodeInput.get, KeyCodeInput.map, hb,
    Option.some_bind]
  rw [List.get?_set_eq_of_lt _ (by simpa using hbank2)]
  cases v with
  | true =>
    simp only [if_true, reduceIte, Option.some.injEq]
    rw [decide_and_shift_eq_testBit, testBit_or_mask]
  | false =>
    simp only [if_false, Bool.false_eq_true, reduceIte, Option.some.injEq]
    rw [decide_and_shift_eq_testBit, testBit_clear_mask _ _ hch]

theorem mouse_set_get (p : Vec2) (prior : MousePositionInput)
    (hx : f32IsFinite p.x = true) (hy : f32IsFinite p.y = true) :
    (prior.set (some p)).get = some p := by
  have hset : prior.set (some p) = ⟨p.x, p.y⟩ := rfl
  rw [hset]
  simp [MousePositionInput.get, hx, hy]

theorem mouse_encode_injective (prior1 prior2 : MousePositionInput)
    (o1 o2 : Option Vec2) (h1 : RepresentableCursor o1)
    (h2 : RepresentableCursor o2) (hne : o1 ≠ o2) :
    prior1.set o1 ≠ prior2.set o2 := by
  have hnanx : f32IsFinite f32NANBits = false := by decide
  cases o1 with
  | none =>
    cases o2 with
    | none => exact absurd rfl hne
    | some q =>
      intro heq
      have hqx : f32NANBits = q.x := congrArg MousePositionInput.x heq
      rw [hqx] at hnanx
      rw [h2.1] at hnanx
      simp at hnanx
  | some p =>
    cases o2 with
    | none =>
      intro heq
      have hpx : p.x = f32NANBits := congrArg MousePositionInput.x heq
      rw [← hpx] at hnanx
      rw [h1.1] at hnanx
      simp at hnanx
    | some q =>
      intro heq
      apply hne
      have hpq1 : p.x = q.x := congrArg MousePositionInput.x heq
      have hpq2 : p.y = q.y := congrArg MousePositionInput.y heq
      have : p = q := by
        cases p
        cases q
        simp_all
      rw [this]

theorem keycode_encode_injective (i1 i2 : KeyCodeInput)
    (hwf1 : i1.WF) (hwf2 : i2.WF)
    (h : ∀ kc, kc < 168 → i1.get kc = i2.get kc) : i1 = i2 := by
  obtain ⟨l1⟩ := i1
  obtain ⟨l2⟩ := i2
  obtain ⟨hlen1, hmem1⟩ := hwf1
  obtain ⟨hlen2, hmem2⟩ := hwf2
  simp only at hlen1 hlen2 hmem1 hmem2
  congr 1
  apply List.ext_get?
  intro n
  by_cases hn : n < 21
  · obtain ⟨b1, hb1⟩ : ∃ b, l1.get? n = some b := ⟨_, List.get?_eq_get (by omega)⟩
    obtain ⟨b2, hb2⟩ : ∃ b, l2.get? n = some b := ⟨_, List.get?_eq_get (by omega)⟩
    rw [hb1, hb2]
    have hb1m : b1 ∈ l1 := List.get?_mem hb1
    have hb2m : b2 ∈ l2 := List.get?_mem hb2
    have hb1lt : b1 < 256 := hmem1 b1 hb1m
    have hb2lt : b2 < 256 := hmem2 b2 hb2m
    congr 1
    apply Nat.eq_of_testBit_eq
    intro j
    by_cases hj : j < 8
    · have hkc : 8 * n + j < 168 := by omega
      have hmod : (8 * n + j) % 8 = j := by omega
      have hdiv : (8 * n + j - j) / 8 = n := by omega
      have hg := h (8 * n + j) hkc
      simp only [KeyCodeInput.get, KeyCodeInput.map, hmod, hdiv, hb1, hb2,
        Option.some.injEq] at hg
      rwa [decide_and_shift_eq_testBit, decide_and_shift_eq_testBit] at hg
    · have hpow : (256 : ℕ) ≤ 2 ^ j := by
        calc (256 : ℕ) = 2 ^ 8 := by norm_num
          _ ≤ 2 ^ j := Nat.pow_le_pow_right (by norm_num) (by omega)
      rw [Nat.testBit_lt_two_pow (by omega), Nat.testBit_lt_two_pow (by omega)]
  · have h1n : l1.get? n = none := List.get?_eq_none.mpr (by omega)
    have h2n : l2.get? n = none := List.get?_eq_none.mpr (by omega)
    rw [h1n, h2n]

/-- C4: the input codec round-trips — a cursor position with two finite
coordinates survives `set` then `get`, and a key-code bit survives `set`
then `get` for every key code in range — and encoding is injective:
distinct representable cursor states produce distinct byte patterns, and
two well-formed key-code encodings agreeing on every button are equal. -/
theorem C4_input_codec_roundtrip :
    (∀ (p : Vec2) (prior : MousePositionInput),
      f32IsFinite p.x = true → f32IsFinite p.y = true →
      (prior.set (some p)).get = some p) ∧
    (∀ (i : KeyCodeInput) (kc : ℕ) (v : Bool),
      kc < 168 → i.keycodes.length = 21 →
      Option.bind (i.set kc v) (fun j => j.get kc) = some v) ∧
    (∀ (prior1 prior2 : MousePositionInput) (o1 o2 : Option Vec2),
      RepresentableCursor o1 → RepresentableCursor o2 → o1 ≠ o2 →
      prior1.set o1 ≠ prior2.set o2) ∧
    (∀ (i1 i2 : KeyCodeInput), i1.WF → i2.WF →
      (∀ kc, kc < 168 → i1.get kc = i2.get kc) → i1 = i2) :=
  ⟨mouse_set_get, keycode_set_get, mouse_encode_injective, keycode_encode_injective⟩

/-- Witness for C4: the position (1.0, 0.0), key code 10 on the default
encoding, the cursor-absent vs origin states, and the default key-code
encoding against itself. -/
theorem C4_input_codec_roundtrip_witness :
    (f32IsFinite 0x3F800000 = true ∧ f32IsFinite (0 : F32Bits) = true ∧
      (MousePositionInput.set ⟨0, 0⟩ (some ⟨0x3F800000, 0⟩)).get
        = some ⟨0x3F800000, 0⟩) ∧
    ((10 : ℕ) < 168 ∧ KeyCodeInput.default.keycodes.length = 21 ∧
      Option.bind (KeyCodeInput.default.set 10 true) (fun j => j.get 10)
        = some true) ∧
    (RepresentableCursor none ∧ RepresentableCursor (some ⟨0, 0⟩) ∧
      MousePositionInput.set ⟨0, 0⟩ none ≠ MousePositionInput.set ⟨0, 0⟩ (some ⟨0, 0⟩)) ∧
    (KeyCodeInput.default.WF ∧ KeyCodeInput.default = KeyCodeInput.default) :=
  ⟨⟨by decide, by decide,
      C4_input_codec_roundtrip.1 ⟨0x3F800000, 0⟩ ⟨0, 0⟩ (by decide) (by decide)⟩,
    ⟨by decide, by decide,
      C4_input_codec_roundtrip.2.1 KeyCodeInput.default 10 true (by decide) (by decide)⟩,
    ⟨trivial, by exact ⟨by decide, by decide⟩,
      C4_input_codec_roundtrip.2.2.1 ⟨0, 0⟩ ⟨0, 0⟩ none (some ⟨0, 0⟩) trivial
        ⟨by decide, by decide⟩ (by simp)⟩,
    ⟨⟨by decide, by decide⟩,
      C4_input_codec_roundtrip.2.2.2 KeyCodeInput.default KeyCodeInput.default
        ⟨by decide, by decide⟩ ⟨by decide, by decide⟩ (fun _ _ => rfl)⟩⟩

/-! ## Reconciliation lemmas and claim C1 -/

theorem listLookup_cons {β : Type} (a : ℕ × β) (rest : List (ℕ × β)) (k : ℕ) :
    listLookup (a :: rest) k
      = if a.1 = k then some a.2 else listLookup rest k := by
  by_cases h : a.1 = k <;> simp [listLookup, List.find?_cons, h]

theorem mem_keys_of_mem {β : Type} {m : List (ℕ × β)} {k : ℕ} {v : β}
    (h : (k, v) ∈ m) : k ∈ keys m :=
  List.mem_map_of_mem Prod.fst h

theorem listLookup_eq_none {β : Type} (m : List (ℕ × β)) (k : ℕ) :
    listLookup m k = none ↔ k ∉ keys m := by
  induction m with
  | nil => simp [listLookup, keys]
  | cons a rest ih =>
    rw [listLookup_cons]
    by_cases h : a.1 = k
    · simp [h, keys]
    · simp only [h, if_false, ih, keys, List.map_cons, List.mem_cons]
      constructor
      · intro hk hor
        rcases hor with hor | hor
        · exact h hor.symm
        · exact hk hor
      · intro hk hm
        exact hk (Or.inr hm)

theorem listLookup_mem {β : Type} {m : List (ℕ × β)} {k : ℕ} {v : β}
    (hnd : (keys m).Nodup) (hmem : (k, v) ∈ m) : listLookup m k = some v := by
  induction m with
  | nil => simp at hmem
  | cons a rest ih =>
    rw [List.mem_cons] at hmem
    rw [listLookup_cons]
    rcases hmem with hmem | hmem
    · rw [← hmem]
      simp
    · have hnd2 : (keys rest).Nodup := by
        simp only [keys, List.map_cons, List.nodup_cons] at hnd
        exact hnd.2
      have ha : a.1 ∉ keys rest := by
        simp only [keys, List.map_cons, List.nodup_cons] at hnd
        exact hnd.1
      have hne : a.1 ≠ k := by
        intro hh
        exact ha (hh ▸ mem_keys_of_mem hmem)
      rw [if_neg hne]
      exact ih hnd2 hmem

theorem listInsert_of_not_mem {β : Type} {m : List (ℕ × β)} {k : ℕ}
    (h : k ∉ keys m) (v : β) : listInsert m k v = m ++ [(k, v)] := by
  induction m with
  | nil => rfl
  | cons a rest ih =>
    have hk : k ≠ a.1 ∧ k ∉ keys rest := by
      simpa [keys] using h
    simp only [listInsert]
    rw [if_neg (fun hh => hk.1 hh.symm), ih hk.2]
    rfl

theorem foldl_insert_fresh :
    ∀ (l : List (RollbackId × Entity)) (m : List (RollbackId × MapEntry)),
      (keys l).Nodup → (∀ p ∈ l, p.1 ∉ keys m) →
      l.foldl (fun m p => listInsert m p.1 ((none : Option Entity), some p.2)) m
        = m ++ l.map (fun p => (p.1, ((none : Option Entity), some p.2))) := by
  intro l
  induction l with
  | nil =>
    intro m _ _
    simp
  | cons p rest ih =>
    intro m hnd hfresh
    have hnd2 : (keys rest).Nodup := by
      simp only [keys, List.map_cons, List.nodup_cons] at hnd
      exact hnd.2
    have hp1 : p.1 ∉ keys rest := by
      simp only [keys, List.map_cons, List.nodup_cons] at hnd
      exact hnd.1
    simp only [List.foldl_cons]
    rw [listInsert_of_not_mem (hfresh p (List.mem_cons_self _ _)) _]
    rw [ih _ hnd2 ?hfresh2]
    case hfresh2 =>
      intro q hq
      have hq1 : q.1 ∉ keys m := hfresh q (List.mem_cons_of_mem _ hq)
      have hq2 : q.1 ≠ p.1 := by
        intro hh
        exact hp1 (hh ▸ mem_keys_of_mem hq)
      simp only [keys, List.map_append, List.map_cons, List.map_nil,
        List.mem_append, List.mem_singleton]
      rintro (hc | hc)
      · exact hq1 (by simpa [keys] using hc)
      · exact hq2 hc
    simp

theorem entrySetCurrent_of_not_mem {m : List (RollbackId × MapEntry)}
    {k : RollbackId} (h : k ∉ keys m) (cur : Entity) :
    entrySetCurrent m k cur = m ++ [(k, (some cur, none))] := by
  induction m with
  | nil => rfl
  | cons a rest ih =>
    have hk : k ≠ a.1 ∧ k ∉ keys rest := by
      simpa [keys] using h
    simp only [entrySetCurrent]
    rw [if_neg (fun hh => hk.1 hh.symm), ih hk.2]
    rfl

theorem entrySetCurrent_of_mem {m : List (RollbackId × MapEntry)}
    {k : RollbackId} (hnd : (keys m).Nodup) (h : k ∈ keys m) (cur : Entity) :
    entrySetCurrent m k cur
      = m.map (fun e => if e.1 = k then (e.1, (some cur, e.2.2)) else e) := by
  induction m with
  | nil => simp [keys] at h
  | cons a rest ih =>
    have hnd2 : (keys rest).Nodup := by
      simp only [keys, List.map_cons, List.nodup_cons] at hnd
      exact hnd.2
    have ha : a.1 ∉ keys rest := by
      simp only [keys, List.map_cons, List.nodup_cons] at hnd
      exact hnd.1
    by_cases hak : a.1 = k
    · simp only [entrySetCurrent, if_pos hak, List.map_cons, if_pos hak]
      congr 1
      have hrest : ∀ e ∈ rest, (if e.1 = k then (e.1, (some cur, e.2.2)) else e) = e := by
        intro e he
        rw [if_neg]
        intro hh
        exact ha (hak ▸ hh ▸ mem_keys_of_mem he)
      rw [List.map_congr_left hrest, List.map_id']
    · have hk : k ∈ keys rest := by
        simp only [keys, List.map_cons, List.mem_cons] at h
        rcases h with h | h
        · exact absurd h.symm hak
        · exact h
      simp only [entrySetCurrent, if_neg hak, List.map_cons, if_neg hak]
      rw [ih hnd2 hk]

theorem keys_entrySet_map (m : List (RollbackId × MapEntry)) (k : RollbackId)
    (cur : Entity) :
    keys (m.map (fun e => if e.1 = k then (e.1, (some cur, e.2.2)) else e))
      = keys m := by
  simp only [keys, List.map_map]
  apply List.map_congr_left
  intro e _
  by_cases h : e.1 = k <;> simp [h]

theorem updEntry_nil (e : RollbackId × MapEntry) : updEntry [] e = e := rfl

theorem foldl_entrySet :
    ∀ (cur : List (RollbackId × Entity)) (m : List (RollbackId × MapEntry)),
      (keys cur).Nodup → (keys m).Nodup →
      cur.foldl (fun m p => entrySetCurrent m p.1 p.2) m
        = m.map (updEntry cur)
          ++ (cur.filter (fun p => decide (p.1 ∉ keys m))).map
              (fun p => (p.1, (some p.2, (none : Option Entity)))) := by
  intro cur
  induction cur with
  | nil =>
    intro m _ _
    simp only [List.foldl_nil, List.filter_nil, List.map_nil, List.append_nil]
    rw [List.map_congr_left (fun e _ => updEntry_nil e), List.map_id']
  | cons p rest ih =>
    intro m hc hm
    have hc2 : (keys rest).Nodup := by
      simp only [keys, List.map_cons, List.nodup_cons] at hc
      exact hc.2
    have hp1 : p.1 ∉ keys rest := by
      simp only [keys, List.map_cons, List.nodup_cons] at hc
      exact hc.1
    simp only [List.foldl_cons]
    by_cases hp : p.1 ∈ keys m
    · rw [entrySetCurrent_of_mem hm hp p.2]
      have hkeys : keys (m.map (fun e => if e.1 = p.1 then (e.1, (some p.2, e.2.2)) else e))
          = keys m := keys_entrySet_map m p.1 p.2
      rw [ih _ hc2 (hkeys ▸ hm)]
      congr 1
      · rw [List.map_map]
        apply List.map_congr_left
        intro e he
        show updEntry rest (if e.1 = p.1 then (e.1, (some p.2, e.2.2)) else e)
          = updEntry (p :: rest) e
        by_cases heq : e.1 = p.1
        · rw [if_pos heq]
          have hnone : listLookup rest e.1 = none := by
            rw [heq]
            exact (listLookup_eq_none rest p.1).mpr hp1
          have hcons : listLookup (p :: rest) e.1 = some p.2 := by
            rw [listLookup_cons, if_pos heq.symm]
          unfold updEntry
          rw [hnone, hcons]
        · rw [if_neg heq]
          unfold updEntry
          rw [listLookup_cons, if_neg (fun hh => heq hh.symm)]
      · rw [hkeys, List.filter_cons, if_neg (by simp [hp])]
    · rw [entrySetCurrent_of_not_mem hp p.2]
      have hkeys : keys (m ++ [(p.1, (some p.2, none))]) = keys m ++ [p.1] := by
        simp [keys]
      have hnd2 : (keys (m ++ [(p.1, (some p.2, none))])).Nodup := by
        rw [hkeys, List.nodup_append]
        exact ⟨hm, List.nodup_singleton _, by simpa using hp⟩
      rw [ih _ hc2 hnd2]
      rw [List.map_append]
      have hsingle : ([(p.1, (some p.2, (none : Option Entity)))].map (updEntry rest))
          = [(p.1, (some p.2, (none : Option Entity)))] := by
        simp only [List.map_cons, List.map_nil]
        congr 1
        unfold updEntry
        rw [(listLookup_eq_none rest p.1).mpr hp1]
      rw [hsingle]
      have hmapeq : m.map (updEntry rest) = m.map (updEntry (p :: rest)) := by
        apply List.map_congr_left
        intro e he
        have hne : e.1 ≠ p.1 := by
          intro hh
          exact hp (hh ▸ mem_keys_of_mem he)
        unfold updEntry
        rw [listLookup_cons, if_neg (fun hh => hne hh.symm)]
      rw [hmapeq]
      have hfilter : rest.filter
            (fun q => decide (q.1 ∉ keys (m ++ [(p.1, (some p.2, none))])))
          = rest.filter (fun q => decide (q.1 ∉ keys m)) := by
        apply List.filter_congr
        intro q hq
        have hqne : q.1 ≠ p.1 := by
          intro hh
          exact hp1 (hh ▸ mem_keys_of_mem hq)
        simp only [hkeys, List.mem_append, List.mem_singleton, hqne, or_false,
          decide_eq_decide]
      rw [hfilter]
      rw [List.filter_cons, if_pos (by simp [hp])]
      rw [List.map_cons, List.append_assoc]
      rfl

theorem keys_map_entry (snapshot : List (RollbackId × Entity)) :
    keys (snapshot.map fun p => (p.1, ((none : Option Entity), some p.2)))
      = keys snapshot := by
  simp only [keys, List.map_map]
  rfl

theorem buildRollbackMapping_eq (snapshot current : List (RollbackId × Entity))
    (hs : (keys snapshot).Nodup) (hc : (keys current).Nodup) :
    buildRollbackMapping snapshot current
      = snapshot.map (fun p => (p.1, (listLookup current p.1, some p.2)))
        ++ (current.filter (fun p => decide (p.1 ∉ keys snapshot))).map
            (fun p => (p.1, (some p.2, (none : Option Entity)))) := by
  unfold buildRollbackMapping
  rw [foldl_insert_fresh snapshot [] hs (by simp [keys])]
  simp only [List.nil_append]
  rw [foldl_entrySet current _ hc (by rw [keys_map_entry]; exact hs)]
  congr 1
  · rw [List.map_map]
    apply List.map_congr_left
    intro e _
    show updEntry current (e.1, (none, some e.2)) = _
    unfold updEntry
    cases hl : listLookup current e.1 with
    | none => rfl
    | some c => rfl
  · rw [keys_map_entry]

theorem processMapping_mem_both :
    ∀ (m : List (RollbackId × MapEntry)) (f : Entity) {k : RollbackId}
      {c o : Entity}, (k, (some c, some o)) ∈ m →
      (c, o) ∈ (processMapping m f).entityMap := by
  intro m
  induction m with
  | nil =>
    intro f k c o h
    simp at h
  | cons e rest ih =>
    intro f k c o h
    rw [List.mem_cons] at h
    obtain ⟨k2, oc, oo⟩ := e
    rcases h with h | h
    · injection h with h1 h2
      injection h2 with h21 h22
      subst h21
      subst h22
      simp [processMapping]
    · cases oc with
      | none =>
        cases oo with
        | none =>
          simp only [processMapping]
          exact ih f h
        | some o2 =>
          simp only [processMapping, List.mem_cons]
          exact Or.inr (ih (f + 1) h)
      | some c2 =>
        cases oo with
        | none =>
          simp only [processMapping]
          exact ih f h
        | some o2 =>
          simp only [processMapping, List.mem_cons]
          exact Or.inr (ih f h)

theorem processMapping_mem_curOnly :
    ∀ (m : List (RollbackId × MapEntry)) (f : Entity) {k : RollbackId}
      {c : Entity}, (k, (some c, none)) ∈ m →
      c ∈ (processMapping m f).despawned := by
  intro m
  induction m with
  | nil =>
    intro f k c h
    simp at h
  | cons e rest ih =>
    intro f k c h
    rw [List.mem_cons] at h
    obtain ⟨k2, oc, oo⟩ := e
    rcases h with h | h
    · injection h with h1 h2
      injection h2 with h21 h22
      subst h21
      subst h22
      simp [processMapping]
    · cases oc with
      | none =>
        cases oo with
        | none =>
          simp only [processMapping]
          exact ih f h
        | some o2 =>
          simp only [processMapping]
          exact ih (f + 1) h
      | some c2 =>
        cases oo with
        | none =>
          simp only [processMapping, List.mem_cons]
          exact Or.inr (ih f h)
        | some o2 =>
          simp only [processMapping]
          exact ih f h

theorem processMapping_mem_histOnly :
    ∀ (m : List (RollbackId × MapEntry)) (f : Entity) {k : RollbackId}
      {o : Entity}, (k, (none, some o)) ∈ m →
      ∃ fr, fr ∈ (processMapping m f).spawned ∧
        (o, fr) ∈ (processMapping m f).entityMap := by
  intro m
  induction m with
  | nil =>
    intro f k o h
    simp at h
  | cons e rest ih =>
    intro f k o h
    rw [List.mem_cons] at h
    obtain ⟨k2, oc, oo⟩ := e
    rcases h with h | h
    · injection h with h1 h2
      injection h2 with h21 h22
      subst h21
      subst h22
      refine ⟨f, ?_, ?_⟩ <;> simp [processMapping]
    · cases oc with
      | none =>
        cases oo with
        | none =>
          simp only [processMapping]
          exact ih f h
        | some o2 =>
          obtain ⟨fr, hfr1, hfr2⟩ := ih (f + 1) h
          exact ⟨fr, by simp only [processMapping, List.mem_cons]; exact Or.inr hfr1,
            by simp only [processMapping, List.mem_cons]; exact Or.inr hfr2⟩
      | some c2 =>
        cases oo with
        | none =>
          obtain ⟨fr, hfr1, hfr2⟩ := ih f h
          exact ⟨fr, by simpa [processMapping] using hfr1,
            by simpa [processMapping] using hfr2⟩
        | some o2 =>
          obtain ⟨fr, hfr1, hfr2⟩ := ih f h
          exact ⟨fr, by simpa [processMapping] using hfr1,
            by simp only [processMapping, List.mem_cons]; exact Or.inr hfr2⟩

theorem processMapping_spawned_count :
    ∀ (m : List (RollbackId × MapEntry)) (f : Entity),
      (processMapping m f).spawned.length
        = m.countP (fun e => e.2.1.isNone && e.2.2.isSome) := by
  intro m
  induction m with
  | nil =>
    intro f
    simp [processMapping]
  | cons e rest ih =>
    intro f
    obtain ⟨k2, oc, oo⟩ := e
    cases oc <;> cases oo <;>
      simp [processMapping, List.countP_cons, ih]

theorem processMapping_spawned_lb :
    ∀ (m : List (RollbackId × MapEntry)) (f : Entity) (x : Entity),
      x ∈ (processMapping m f).spawned → f ≤ x := by
  intro m
  induction m with
  | nil =>
    intro f x h
    simp [processMapping] at h
  | cons e rest ih =>
    intro f x h
    obtain ⟨k2, oc, oo⟩ := e
    cases oc with
    | none =>
      cases oo with
      | none =>
        exact ih f x (by simpa [processMapping] using h)
      | some o2 =>
        simp only [processMapping, List.mem_cons] at h
        rcases h with h | h
        · exact h.ge
        · exact Nat.le_of_succ_le (ih (f + 1) x h)
    | some c2 =>
      cases oo with
      | none =>
        exact ih f x (by simpa [processMapping] using h)
      | some o2 =>
        exact ih f x (by simpa [processMapping] using h)

theorem processMapping_spawned_nodup :
    ∀ (m : List (RollbackId × MapEntry)) (f : Entity),
      (processMapping m f).spawned.Nodup := by
  intro m
  induction m with
  | nil =>
    intro f
    simp [processMapping]
  | cons e rest ih =>
    intro f
    obtain ⟨k2, oc, oo⟩ := e
    cases oc with
    | none =>
      cases oo with
      | none =>
        simpa [processMapping] using ih f
      | some o2 =>
        simp only [processMapping, List.nodup_cons]
        refine ⟨?_, ih (f + 1)⟩
        intro hmem
        exact Nat.not_succ_le_self f (processMapping_spawned_lb rest (f + 1) f hmem)
    | some c2 =>
      cases oo with
      | none =>
        simpa [processMapping] using ih f
      | some o2 =>
        simpa [processMapping] using ih f

/-- C1: for every Load, with live and historical sets keyed by
`Rollback` id (unique keys, and a persisting object keeps its entity
handle): an id in both sets contributes an identity mapping to the
`EntityMap`; an id only in the historical set spawns exactly one fresh
placeholder (fresh ids are pairwise distinct and the spawn count equals
the count of historical-only ids) mapped historical→new; an id only in
the live set has its entity despawned.  In particular, for live set
{1,2,3} and historical set {2,3,4}, the load despawns entity 1, spawns
exactly one placeholder for id 4, and maps 2 and 3 to themselves. -/
theorem C1_entity_reconciliation :
    (∀ (snapshot current : List (RollbackId × Entity)) (freshBase : Entity),
      (keys snapshot).Nodup → (keys current).Nodup →
      (∀ k e e2, (k, e) ∈ snapshot → (k, e2) ∈ current → e = e2) →
      ((∀ k e, (k, e) ∈ snapshot → k ∈ keys current →
          (e, e) ∈ (GgrsEntitySnapshotPlugin.load snapshot current freshBase).entityMap) ∧
        (∀ k e, (k, e) ∈ snapshot → k ∉ keys current →
          ∃ fr, fr ∈ (GgrsEntitySnapshotPlugin.load snapshot current freshBase).spawned ∧
            (e, fr) ∈ (GgrsEntitySnapshotPlugin.load snapshot current freshBase).entityMap) ∧
        (GgrsEntitySnapshotPlugin.load snapshot current freshBase).spawned.length
          = (snapshot.filter (fun p => decide (p.1 ∉ keys current))).length ∧
        (GgrsEntitySnapshotPlugin.load snapshot current freshBase).spawned.Nodup ∧
        (∀ k e, (k, e) ∈ current → k ∉ keys snapshot →
          e ∈ (GgrsEntitySnapshotPlugin.load snapshot current freshBase).despawned))) ∧
    GgrsEntitySnapshotPlugin.load [(2, 2), (3, 3), (4, 4)] [(1, 1), (2, 2), (3, 3)] 100
      = ⟨[(2, 2), (3, 3), (4, 100)], [1], [100]⟩ := by
  constructor
  · intro snapshot current freshBase hs hc hpersist
    have hBRM := buildRollbackMapping_eq snapshot current hs hc
    refine ⟨?_, ?_, ?_, ?_, ?_⟩
    · intro k e hmem hkc
      simp only [keys] at hkc
      obtain ⟨q, hq, hqk⟩ := List.mem_map.mp hkc
      have hq2 : (k, q.2) ∈ current := by
        have hqe : (k, q.2) = q := by
          rw [← hqk]
        exact hqe ▸ hq
      have he2 : e = q.2 := hpersist k e q.2 hmem hq2
      have hlook : listLookup current k = some e := by
        rw [he2]
        exact listLookup_mem hc hq2
      have hentry : (k, (some e, some e)) ∈ buildRollbackMapping snapshot current := by
        rw [hBRM]
        apply List.mem_append_left
        have hmm := List.mem_map_of_mem
          (fun p => (p.1, (listLookup current p.1, some p.2))) hmem
        simp only at hmm
        rwa [hlook] at hmm
      exact processMapping_mem_both _ freshBase hentry
    · intro k e hmem hkc
      have hlook : listLookup current k = none :=
        (listLookup_eq_none current k).mpr hkc
      have hentry : (k, ((none : Option Entity), some e))
          ∈ buildRollbackMapping snapshot current := by
        rw [hBRM]
        apply List.mem_append_left
        have hmm := List.mem_map_of_mem
          (fun p => (p.1, (listLookup current p.1, some p.2))) hmem
        simp only at hmm
        rwa [hlook] at hmm
      exact processMapping_mem_histOnly _ freshBase hentry
    · show (processMapping (buildRollbackMapping snapshot current) freshBase).spawned.length = _
      rw [processMapping_spawned_count, hBRM, List.countP_append]
      have hpart2 : ((current.filter (fun p => decide (p.1 ∉ keys snapshot))).map
            (fun p => (p.1, (some p.2, (none : Option Entity))))).countP
              (fun e => e.2.1.isNone && e.2.2.isSome) = 0 := by
        rw [List.countP_eq_zero]
        intro a ha
        obtain ⟨p, _, rfl⟩ := List.mem_map.mp ha
        simp
      rw [hpart2, Nat.add_zero, List.countP_map, ← List.countP_eq_length_filter]
      apply List.countP_congr
      intro p _
      show ((listLookup current p.1).isNone && (some p.2).isSome) = true ↔ _
      cases hl : listLookup current p.1 with
      | none =>
        have := (listLookup_eq_none current p.1).mp hl
        simp [this]
      | some c =>
        have : ¬ (p.1 ∉ keys current) := by
          intro hcon
          rw [(listLookup_eq_none current p.1).mpr hcon] at hl
          exact Option.noConfusion hl
        simp [this]
    · exact processMapping_spawned_nodup _ _
    · intro k e hmem hkc
      have hentry : (k, (some e, (none : Option Entity)))
          ∈ buildRollbackMapping snapshot current := by
        rw [hBRM]
        apply List.mem_append_right
        have hpf : (k, e) ∈ current.filter (fun p => decide (p.1 ∉ keys snapshot)) :=
          List.mem_filter.mpr ⟨hmem, by simpa using hkc⟩
        exact List.mem_map_of_mem (fun p => (p.1, (some p.2, (none : Option Entity)))) hpf
      exact processMapping_mem_curOnly _ freshBase hentry
  · decide

/-- Witness for C1: the spec's concrete instance — live set {1,2,3},
historical set {2,3,4}, each id naming its own entity — satisfies the
hypotheses, and the theorem yields the identity mapping for id 2 and a
spawned placeholder for id 4. -/
theorem C1_entity_reconciliation_witness :
    (keys [((2 : ℕ), (2 : ℕ)), (3, 3), (4, 4)]).Nodup ∧
    (keys [((1 : ℕ), (1 : ℕ)), (2, 2), (3, 3)]).Nodup ∧
    ((2 : ℕ), (2 : ℕ))
      ∈ (GgrsEntitySnapshotPlugin.load [(2, 2), (3, 3), (4, 4)]
          [(1, 1), (2, 2), (3, 3)] 100).entityMap ∧
    (∃ fr, fr ∈ (GgrsEntitySnapshotPlugin.load [(2, 2), (3, 3), (4, 4)]
          [(1, 1), (2, 2), (3, 3)] 100).spawned ∧
        ((4 : ℕ), fr) ∈ (GgrsEntitySnapshotPlugin.load [(2, 2), (3, 3), (4, 4)]
          [(1, 1), (2, 2), (3, 3)] 100).entityMap) ∧
    (1 : ℕ) ∈ (GgrsEntitySnapshotPlugin.load [(2, 2), (3, 3), (4, 4)]
        [(1, 1), (2, 2), (3, 3)] 100).despawned := by
  have hper : ∀ (k e e2 : ℕ),
      (k, e) ∈ [((2 : ℕ), (2 : ℕ)), (3, 3), (4, 4)] →
      (k, e2) ∈ [((1 : ℕ), (1 : ℕ)), (2, 2), (3, 3)] → e = e2 := by
    intro k e e2 h1 h2
    simp only [List.mem_cons, List.not_mem_nil, or_false, Prod.mk.injEq] at h1 h2
    rcases h1 with ⟨rfl, rfl⟩ | ⟨rfl, rfl⟩ | ⟨rfl, rfl⟩ <;>
      rcases h2 with ⟨h21, rfl⟩ | ⟨h21, rfl⟩ | ⟨h21, rfl⟩ <;> omega
  have hmain := C1_entity_reconciliation.1 [(2, 2), (3, 3), (4, 4)]
    [(1, 1), (2, 2), (3, 3)] 100 (by decide) (by decide) hper
  exact ⟨by decide, by decide, hmain.1 2 2 (by decide) (by decide),
    hmain.2.1 4 4 (by decide) (by decide),
    hmain.2.2.2.2 1 1 (by decide) (by decide)⟩

end BevyGgrs

